import Mathlib

/-!
Verification development for the maize near-infrared spectroscopy pipeline
(`corn/corn.py`).  The Python source is shallowly embedded here:

* machine floats are modelled as real numbers `ℝ` (for the numeric
  transforms: SNV, StandardScaler, feature importance) or as rationals `ℚ`
  (for the purely comparative training-loop logic, where decidability is
  useful);
* numpy row statistics (`np.mean`, `np.std` along `axis=1`) become
  `npMean` / `npStd` on `List ℝ`;
* the sklearn `train_test_split(..., test_size=0.3, random_state=42,
  shuffle=True)` call is embedded with the pseudorandom permutation drawn
  by the fixed seed as an explicit parameter (sklearn shuffles
  `range n` into a permutation `perm`, takes `perm[:n_test]` as the test
  indices and `perm[n_test:]` as the train indices, with
  `n_test = ceil(0.3 * n)`);
* the epoch loop of `train_model` becomes a step function on an explicit
  trainer state, with the per-epoch mean losses and the per-epoch trained
  parameter snapshots as abstract sequences;
* `EnhancedCNNModel.forward` is embedded at the shape level (the claims
  about it concern tensor shapes only).
-/

namespace Corn

/-! ### numpy row statistics (`np.mean(spectra, axis=1)`, `np.std(spectra, axis=1)`)

`np.std` is the population standard deviation: the square root of the mean
of squared deviations (`ddof = 0`). -/

noncomputable def npMean (x : List ℝ) : ℝ := x.sum / x.length

noncomputable def npVar (x : List ℝ) : ℝ := npMean (x.map fun v => (v - npMean x) ^ 2)

noncomputable def npStd (x : List ℝ) : ℝ := Real.sqrt (npVar x)

/-! ### `snv_transform` (corn.py lines 218-224)

```python
def snv_transform(spectra):
    mean = np.mean(spectra, axis=1).reshape(-1, 1)
    std = np.std(spectra, axis=1).reshape(-1, 1)
    return (spectra - mean) / std
```

Each row is transformed independently: subtract the row's own mean and
divide by the row's own standard deviation.  There is no branch on
`std == 0`: the division is performed unconditionally.  (In the real-number
model, division by zero yields `0`; numpy silently yields non-finite
values.  Either way the degenerate division happens without any error or
fallback.) -/

noncomputable def snvRow (x : List ℝ) : List ℝ := x.map fun v => (v - npMean x) / npStd x

noncomputable def snv_transform (spectra : List (List ℝ)) : List (List ℝ) :=
  spectra.map snvRow

/-! ### basic facts about the row statistics -/

lemma sum_map_affine (a b : ℝ) (x : List ℝ) :
    (x.map fun v => v * a + b).sum = x.sum * a + x.length * b := by
  induction x with
  | nil => simp
  | cons h t ih =>
    simp only [List.map_cons, List.sum_cons, ih, List.length_cons]
    push_cast
    ring

lemma length_ne_zero_cast {x : List ℝ} (hx : x ≠ []) : (x.length : ℝ) ≠ 0 := by
  have : x.length ≠ 0 := by
    intro h
    exact hx (List.length_eq_zero.mp h)
  exact_mod_cast this

lemma sum_eq_length_mul_mean {x : List ℝ} (hx : x ≠ []) :
    x.sum = x.length * npMean x := by
  rw [npMean, mul_div_cancel₀ _ (length_ne_zero_cast hx)]

lemma npMean_nonneg_of_nonneg {x : List ℝ} (h : ∀ v ∈ x, 0 ≤ v) : 0 ≤ npMean x :=
  div_nonneg (List.sum_nonneg h) (Nat.cast_nonneg _)

lemma npVar_nonneg (x : List ℝ) : 0 ≤ npVar x := by
  refine npMean_nonneg_of_nonneg ?_
  intro v hv
  obtain ⟨w, _, rfl⟩ := List.mem_map.mp hv
  exact sq_nonneg _

lemma npVar_pos_of_npStd_ne_zero {x : List ℝ} (hs : npStd x ≠ 0) : 0 < npVar x := by
  rcases lt_or_eq_of_le (npVar_nonneg x) with h | h
  · exact h
  · exact absurd (by rw [npStd, ← h, Real.sqrt_zero]) hs

lemma sq_npStd {x : List ℝ} : npStd x ^ 2 = npVar x := by
  rw [npStd, Real.sq_sqrt (npVar_nonneg x)]

lemma sum_snvRow (x : List ℝ) :
    (snvRow x).sum = (x.sum - x.length * npMean x) * (npStd x)⁻¹ := by
  rw [snvRow]
  have h : (fun v : ℝ => (v - npMean x) / npStd x)
      = fun v : ℝ => v * (npStd x)⁻¹ + -(npMean x * (npStd x)⁻¹) := by
    funext v
    rw [div_eq_mul_inv]
    ring
  rw [h, sum_map_affine]
  ring

lemma npMean_snvRow {x : List ℝ} (hx : x ≠ []) : npMean (snvRow x) = 0 := by
  rw [npMean, sum_snvRow, sum_eq_length_mul_mean hx]
  simp

lemma npMean_map_mul_right (y : List ℝ) (c : ℝ) :
    npMean (y.map fun w => w * c) = npMean y * c := by
  rw [npMean, npMean]
  have h : (fun w : ℝ => w * c) = fun w : ℝ => w * c + 0 := by
    funext w
    ring
  rw [h, sum_map_affine, List.length_map]
  rw [mul_zero, add_zero, mul_comm y.sum c, mul_div_assoc, mul_comm c]

lemma npVar_snvRow {x : List ℝ} (hx : x ≠ []) (hs : npStd x ≠ 0) :
    npVar (snvRow x) = 1 := by
  have hvar := npVar_pos_of_npStd_ne_zero hs
  rw [npVar, npMean_snvRow hx]
  simp only [sub_zero]
  have h : (snvRow x).map (fun v : ℝ => v ^ 2)
      = (x.map fun v => (v - npMean x) ^ 2).map fun w => w * (npVar x)⁻¹ := by
    rw [snvRow, List.map_map, List.map_map]
    congr 1
    funext v
    simp only [Function.comp_apply]
    rw [div_pow, sq_npStd, div_eq_mul_inv]
  rw [h, npMean_map_mul_right]
  have hv : npMean (x.map fun v => (v - npMean x) ^ 2) = npVar x := rfl
  rw [hv, mul_inv_cancel₀ (ne_of_gt hvar)]

/-- Claim C5: for every spectrum with nonzero standard deviation, `snv_transform`
subtracts that spectrum's own mean and divides by its own standard deviation
(both over the wavelength axis of that single spectrum, by definition of
`snvRow`), and the resulting spectrum has mean 0 and population standard
deviation 1. -/
theorem snv_mean_zero_std_one {x : List ℝ} (hx : x ≠ []) (hs : npStd x ≠ 0) :
    npMean (snvRow x) = 0 ∧ npStd (snvRow x) = 1 := by
  refine ⟨npMean_snvRow hx, ?_⟩
  rw [npStd, npVar_snvRow hx hs, Real.sqrt_one]

/-- Witness for C5 at the concrete spectrum `[1, 2, 3, 4, 5]` (mean 3,
population variance 2, hence nonzero standard deviation). -/
theorem snv_mean_zero_std_one_witness :
    npMean (snvRow [1, 2, 3, 4, 5]) = 0 ∧ npStd (snvRow [1, 2, 3, 4, 5]) = 1 := by
  have h1 : npMean [(1 : ℝ), 2, 3, 4, 5] = 3 := by norm_num [npMean]
  have h2 : npStd [(1 : ℝ), 2, 3, 4, 5] ≠ 0 := by
    rw [npStd, show npVar [(1 : ℝ), 2, 3, 4, 5] = 2 by rw [npVar, h1]; norm_num [npMean]]
    exact Real.sqrt_ne_zero'.mpr (by norm_num)
  exact snv_mean_zero_std_one (by simp) h2

/-- Claim C4 counterexample: the constant spectrum `[5, 5]` has standard
deviation 0, yet `snv_transform` neither signals a failure nor applies a
skip/reject fallback: it performs the division by zero anyway.  In the
real-number model the row comes out as `[0, 0]` (numpy silently produces
non-finite `0/0` values at the same spot); the output row is not the
untouched input row, and the sample is not dropped. -/
theorem snv_zero_variance_counterexample :
    npStd [(5 : ℝ), 5] = 0 ∧
    snv_transform [[(5 : ℝ), 5]] = [[0, 0]] ∧
    snv_transform [[(5 : ℝ), 5]] ≠ [[(5 : ℝ), 5]] ∧
    (snv_transform [[(5 : ℝ), 5]]).length = 1 := by
  have hm : npMean [(5 : ℝ), 5] = 5 := by norm_num [npMean]
  have hv : npVar [(5 : ℝ), 5] = 0 := by rw [npVar, hm]; norm_num [npMean]
  have hs : npStd [(5 : ℝ), 5] = 0 := by rw [npStd, hv, Real.sqrt_zero]
  have hrow : snvRow [(5 : ℝ), 5] = [0, 0] := by
    rw [snvRow, hm, hs]
    norm_num
  have htr : snv_transform [[(5 : ℝ), 5]] = [[0, 0]] := by
    rw [snv_transform, List.map_cons, List.map_nil, hrow]
  refine ⟨hs, htr, ?_, by rw [htr]; rfl⟩
  rw [htr]
  intro h
  have := List.head_eq_of_cons_eq h
  simp at this

/-- Claim C4 amended: `snv_transform` has no zero-variance guard.  A spectrum
whose standard deviation is zero is still divided by that zero standard
deviation: in the real-number model every entry of the output row becomes 0
(numpy produces non-finite values at the same entries); the row is neither
left unnormalized, nor rejected (the row count is preserved), nor reported
as an error. -/
theorem snv_zero_variance_no_guard {x : List ℝ} (hs : npStd x = 0) :
    snvRow x = x.map (fun _ => (0 : ℝ)) ∧ (snv_transform [x]).length = 1 := by
  constructor
  · rw [snvRow, hs]
    simp
  · simp [snv_transform]

/-- Witness for the amended C4 at the concrete zero-variance spectrum `[5, 5]`. -/
theorem snv_zero_variance_no_guard_witness :
    snvRow [(5 : ℝ), 5] = [0, 0] ∧ (snv_transform [[(5 : ℝ), 5]]).length = 1 := by
  have hs : npStd [(5 : ℝ), 5] = 0 := by
    rw [npStd, show npVar [(5 : ℝ), 5] = 0 by norm_num [npVar, npMean], Real.sqrt_zero]
  have h := snv_zero_variance_no_guard hs
  simpa using h

/-! ### Standardization and train/test split in `load_and_preprocess_data`
(corn.py lines 186-198)

```python
scaler_spectra = StandardScaler()
scaler_targets = StandardScaler()
spectra_scaled = scaler_spectra.fit_transform(spectra)
targets_scaled = scaler_targets.fit_transform(targets)
X_train, X_test, y_train, y_test = train_test_split(
    spectra_scaled, targets_scaled, test_size=0.3, random_state=42, shuffle=True)
```

The scalers are fitted at lines 190-191 on the FULL table; the split happens
only afterwards at line 197.  These claims are about which samples the fitted
per-feature statistics come from, so a single feature column (over `ℚ`, where
the mean and variance are exactly representable) suffices.

sklearn's `train_test_split(..., shuffle=True)` draws a permutation of
`range n` from the fixed `random_state=42` generator, takes `perm[:n_test]`
as the test rows and `perm[n_test:]` as the train rows, with
`n_test = ceil(test_size * n)`.  The permutation is a deterministic function
of the seed; its concrete value is internal to numpy's generator, so it is an
explicit parameter here, constrained to be a permutation of `range n`.
(`0.3` rounds to a double a hair below `3/10`, and for every realistic `n`
the float `ceil(n * 0.3)` agrees with the exact `ceil(3n/10)`, written below
as `(3n + 9) / 10` in natural-number division.) -/

def colMean (col : List ℚ) : ℚ := col.sum / col.length

def colVar (col : List ℚ) : ℚ := colMean (col.map fun v => (v - colMean col) ^ 2)

/-- The per-feature mean stored by `scaler_spectra.fit_transform(spectra)` /
`scaler_targets.fit_transform(targets)` at corn.py lines 190-191: the mean of
the whole column, all `n` samples. -/
def fittedMean (col : List ℚ) : ℚ := colMean col

/-- The per-feature variance stored by the same `fit_transform` calls. -/
def fittedVar (col : List ℚ) : ℚ := colVar col

/-- `n_test = ceil(0.3 * n)` of sklearn `train_test_split` with `test_size=0.3`. -/
def nTestOf (n : ℕ) : ℕ := (3 * n + 9) / 10

/-- Test rows: the first `n_test` entries of the shuffled index permutation. -/
def testIdx (perm : List ℕ) : List ℕ := perm.take (nTestOf perm.length)

/-- Train rows: the remaining entries of the shuffled index permutation. -/
def trainIdx (perm : List ℕ) : List ℕ := perm.drop (nTestOf perm.length)

/-- Extract the column values at a list of row indices. -/
def gather (col : List ℚ) (idx : List ℕ) : List ℚ := idx.map fun i => col.getD i 0

lemma gather_range (col : List ℚ) : gather col (List.range col.length) = col := by
  rw [gather]
  apply List.ext_getElem
  · simp
  · intro n h1 h2
    simp only [List.getElem_map, List.getElem_range]
    exact List.getD_eq_getElem col 0 h2

lemma colMean_perm {p q : List ℚ} (h : p.Perm q) : colMean p = colMean q := by
  rw [colMean, colMean, h.sum_eq, h.length_eq]

lemma colVar_perm {p q : List ℚ} (h : p.Perm q) : colVar p = colVar q := by
  rw [colVar, colVar, colMean_perm h]
  exact colMean_perm (h.map _)

lemma gathered_perm (col : List ℚ) (perm : List ℕ)
    (hp : perm.Perm (List.range col.length)) :
    (gather col (trainIdx perm) ++ gather col (testIdx perm)).Perm col := by
  have h1 : gather col (trainIdx perm) ++ gather col (testIdx perm)
      = gather col (trainIdx perm ++ testIdx perm) := by
    rw [gather, gather, gather, List.map_append]
  have h2 : (trainIdx perm ++ testIdx perm).Perm perm := by
    have h3 : (perm.drop (nTestOf perm.length) ++ perm.take (nTestOf perm.length)).Perm
        (perm.take (nTestOf perm.length) ++ perm.drop (nTestOf perm.length)) :=
      List.perm_append_comm
    rw [List.take_append_drop] at h3
    exact h3
  rw [h1]
  have h4 : (gather col (trainIdx perm ++ testIdx perm)).Perm (gather col perm) :=
    h2.map _
  have h5 : (gather col perm).Perm (gather col (List.range col.length)) := hp.map _
  rw [gather_range col] at h5
  exact h4.trans h5

/-- Claim C1 counterexample: with the 2-sample feature column `[0, 6]` the
scaler mean fitted at corn.py line 190 is `3`, the mean of BOTH samples.
The split at line 197 puts one sample in test and one in train (`[0, 1]` and
`[1, 0]` are the only possible shuffles of 2 rows, whichever seed 42 yields),
and the train-only mean is `6` or `0` — never the `3` actually used.  So the
statistics used are not computed exclusively from the train partition. -/
theorem standardization_train_only_counterexample :
    fittedMean [0, 6] = 3 ∧
    colMean (gather [0, 6] (trainIdx [0, 1])) = 6 ∧
    colMean (gather [0, 6] (trainIdx [1, 0])) = 0 ∧
    (3 : ℚ) ≠ 6 ∧ (3 : ℚ) ≠ 0 := by
  refine ⟨by norm_num [fittedMean, colMean], ?_, ?_, by norm_num, by norm_num⟩
  · norm_num [colMean, gather, trainIdx, nTestOf, List.getD]
  · norm_num [colMean, gather, trainIdx, nTestOf, List.getD]

/-- Claim C1 amended: `load_and_preprocess_data` fits both scalers BEFORE the
train/test split, so for every input column the fitted per-feature mean and
variance equal the statistics of all samples — the concatenation of the
train-partition values with the test-partition values.  The test partition's
values do influence the fitted statistics. -/
theorem standardization_fit_uses_all_samples
    (col : List ℚ) (perm : List ℕ) (hp : perm.Perm (List.range col.length)) :
    fittedMean col
      = colMean (gather col (trainIdx perm) ++ gather col (testIdx perm)) ∧
    fittedVar col
      = colVar (gather col (trainIdx perm) ++ gather col (testIdx perm)) := by
  have h := gathered_perm col perm hp
  exact ⟨(colMean_perm h).symm, (colVar_perm h).symm⟩

/-- Witness for the amended C1 at the concrete column `[0, 6]` with shuffle
`[1, 0]`. -/
theorem standardization_fit_uses_all_samples_witness :
    fittedMean [0, 6]
      = colMean (gather [0, 6] (trainIdx [1, 0]) ++ gather [0, 6] (testIdx [1, 0])) ∧
    fittedVar [0, 6]
      = colVar (gather [0, 6] (trainIdx [1, 0]) ++ gather [0, 6] (testIdx [1, 0])) :=
  standardization_fit_uses_all_samples [0, 6] [1, 0] (by decide)

/-- Claim C6 counterexample: for `n = 9` samples, `0.3·9 = 2.7` is not an
integer, and rounding in favor of the larger/train partition would give the
train partition `ceil(0.7·9) = 7` samples.  The code (sklearn with
`test_size=0.3`) instead takes `n_test = ceil(0.3·9) = 3` and leaves
`9 − 3 = 6` train samples: the fractional sample goes to the TEST partition. -/
theorem split_rounding_counterexample :
    (trainIdx (List.range 9)).length = 6 ∧
    (testIdx (List.range 9)).length = 3 ∧
    (trainIdx (List.range 9)).length ≠ (7 * 9 + 9) / 10 := by decide

/-- Claim C6 amended: the split is a deterministic function of the shuffled
permutation (itself a fixed function of seed 42 and `n`), the two partitions
are disjoint, their sizes sum to `n` — but when `0.3·n` is not an integer the
rounding favors the TEST partition: `n_test = ⌈0.3·n⌉` and
`n_train = ⌊0.7·n⌋`. -/
theorem split_partition_properties (n : ℕ) (perm : List ℕ)
    (hp : perm.Perm (List.range n)) :
    (trainIdx perm).length = 7 * n / 10 ∧
    (testIdx perm).length = (3 * n + 9) / 10 ∧
    (trainIdx perm).length + (testIdx perm).length = n ∧
    (trainIdx perm).Disjoint (testIdx perm) := by
  have hlen : perm.length = n := by simpa using hp.length_eq
  have h1 : (trainIdx perm).length = 7 * n / 10 := by
    rw [trainIdx, List.length_drop, hlen, nTestOf]
    omega
  have h2 : (testIdx perm).length = (3 * n + 9) / 10 := by
    rw [testIdx, List.length_take, hlen, nTestOf]
    omega
  have hnd : perm.Nodup := hp.nodup_iff.mpr (List.nodup_range n)
  refine ⟨h1, h2, by rw [h1, h2]; omega, ?_⟩
  exact (List.disjoint_take_drop hnd le_rfl).symm

/-- Witness for the amended C6 at `n = 10` with the identity shuffle. -/
theorem split_partition_properties_witness :
    (trainIdx (List.range 10)).length = 7 * 10 / 10 ∧
    (testIdx (List.range 10)).length = (3 * 10 + 9) / 10 ∧
    (trainIdx (List.range 10)).length + (testIdx (List.range 10)).length = 10 ∧
    (trainIdx (List.range 10)).Disjoint (testIdx (List.range 10)) :=
  split_partition_properties 10 (List.range 10) (List.Perm.refl _)

/-! ### `train_model` (corn.py lines 247-312)

```python
best_loss = float('inf')
patience = 20
counter = 0
for epoch in range(epochs):
    ...                                   # one pass over the batches
    epoch_loss = running_loss / len(train_loader)
    ...
    if epoch_loss < best_loss:
        best_loss = epoch_loss
        counter = 0
        torch.save(model.state_dict(), 'best_model.pth')
    else:
        counter += 1
        if counter >= patience:
            break
model.load_state_dict(torch.load('best_model.pth'))
```

The claims are about the control flow of the epoch loop, so the inner batch
loop is abstracted into the per-epoch mean loss sequence `L : ℕ → ℚ`
(`epoch_loss` of epoch `e`; well defined whenever the loader has at least one
batch) and the trained parameter snapshots `θ : ℕ → P` (`model.state_dict()`
at the end of epoch `e`).  Losses are rationals: the only thing the loop does
with them is compare (`float('inf')` becomes the `none` сase of
`Option ℚ`).  The file `best_model.pth` is the `ckpt` field; `none` means the
file was never written, in which case the `torch.load` after the loop would
fail. -/

structure TrainState (P : Type) where
  bestLoss : Option ℚ
  counter : ℕ
  ckpt : Option P
  stopped : Bool

def patience : ℕ := 20

/-- `epoch_loss < best_loss`, where `best_loss` starts as `float('inf')`:
every rational compares below the infinity sentinel. -/
def improves (l : ℚ) : Option ℚ → Bool
  | none => true
  | some b => decide (l < b)

/-- One epoch of the loop body after the batch pass: improvement check,
checkpointing, stall counting, early-stop flag. -/
def epochStep {P : Type} (L : ℕ → ℚ) (θ : ℕ → P) (s : TrainState P) (e : ℕ) :
    TrainState P :=
  if improves (L e) s.bestLoss then
    ⟨some (L e), 0, some (θ e), s.stopped⟩
  else
    ⟨s.bestLoss, s.counter + 1, s.ckpt, s.stopped || decide (patience ≤ s.counter + 1)⟩

def initTrainState {P : Type} : TrainState P := ⟨none, 0, none, false⟩

/-- The epoch loop: runs up to `n` more epochs starting at epoch index `e`,
breaking as soon as a step raises the early-stop flag.  Returns the final
state together with the number of epochs actually executed. -/
def trainLoop {P : Type} (L : ℕ → ℚ) (θ : ℕ → P) :
    ℕ → ℕ → TrainState P → TrainState P × ℕ
  | 0, e, s => (s, e)
  | n + 1, e, s =>
    let s₁ := epochStep L θ s e
    if s₁.stopped then (s₁, e + 1) else trainLoop L θ n (e + 1) s₁

def train_model {P : Type} (L : ℕ → ℚ) (θ : ℕ → P) (epochs : ℕ) :
    TrainState P × ℕ :=
  trainLoop L θ epochs 0 initTrainState

/-- The trainer state after the bodies of epochs `0 .. e-1` have run (ignoring
the break, which is accounted for separately: the `stopped` flag is sticky). -/
def statesAt {P : Type} (L : ℕ → ℚ) (θ : ℕ → P) : ℕ → TrainState P
  | 0 => initTrainState
  | e + 1 => epochStep L θ (statesAt L θ e) e

lemma epochStep_stopped_mono {P : Type} (L : ℕ → ℚ) (θ : ℕ → P) (s : TrainState P)
    (e : ℕ) (h : (epochStep L θ s e).stopped = false) : s.stopped = false := by
  rw [epochStep] at h
  by_cases hi : improves (L e) s.bestLoss = true
  · rw [if_pos hi] at h
    exact h
  · rw [if_neg hi] at h
    simpa using (Bool.or_eq_false_iff.mp h).1

lemma statesAt_stopped_le {P : Type} (L : ℕ → ℚ) (θ : ℕ → P) :
    ∀ k, (statesAt L θ k).stopped = false →
      ∀ j, j ≤ k → (statesAt L θ j).stopped = false := by
  intro k
  induction k with
  | zero =>
    intro hk j hj
    have : j = 0 := Nat.le_zero.mp hj
    rw [this]
    exact hk
  | succ k ih =>
    intro hk j hj
    have hk0 : (statesAt L θ k).stopped = false := by
      have hk' : (epochStep L θ (statesAt L θ k) k).stopped = false := hk
      exact epochStep_stopped_mono L θ _ k hk'
    rcases Nat.lt_or_ge j (k + 1) with h | h
    · exact ih hk0 j (Nat.lt_succ_iff.mp h)
    · have hje : j = k + 1 := le_antisymm hj h
      rw [hje]
      exact hk

lemma trainLoop_skip {P : Type} (L : ℕ → ℚ) (θ : ℕ → P) :
    ∀ (k n : ℕ), k ≤ n → (statesAt L θ k).stopped = false →
      trainLoop L θ n 0 initTrainState
        = trainLoop L θ (n - k) k (statesAt L θ k) := by
  intro k
  induction k with
  | zero =>
    intro n _ _
    rfl
  | succ k ih =>
    intro n hk hstop
    have hk0 : (statesAt L θ k).stopped = false :=
      statesAt_stopped_le L θ (k + 1) hstop k (Nat.le_succ k)
    rw [ih n (Nat.le_of_succ_le hk) hk0]
    have hnk : n - k = (n - (k + 1)) + 1 := by omega
    rw [hnk, trainLoop]
    have heq : epochStep L θ (statesAt L θ k) k = statesAt L θ (k + 1) := rfl
    simp only [heq, hstop]
    rfl

lemma trainLoop_stall {P : Type} (L : ℕ → ℚ) (θ : ℕ → P) :
    ∀ (m e n : ℕ) (s : TrainState P),
      s.stopped = false →
      s.counter + (m + 1) = patience →
      (∀ j, e ≤ j → j < e + (m + 1) → improves (L j) s.bestLoss = false) →
      m + 1 ≤ n →
      trainLoop L θ n e s = (⟨s.bestLoss, patience, s.ckpt, true⟩, e + (m + 1)) := by
  intro m
  induction m with
  | zero =>
    intro e n s hstop hc hni hn
    obtain ⟨n₁, rfl⟩ : ∃ n₁, n = n₁ + 1 := ⟨n - 1, by omega⟩
    rw [trainLoop]
    have hni0 : improves (L e) s.bestLoss = false := hni e le_rfl (by omega)
    have hstep : epochStep L θ s e = ⟨s.bestLoss, s.counter + 1, s.ckpt, true⟩ := by
      rw [epochStep, if_neg (by simp [hni0])]
      have hdec : decide (patience ≤ s.counter + 1) = true := by
        simp
        omega
      rw [hstop, hdec]
      rfl
    simp only [hstep]
    rw [if_pos trivial]
    have hc1 : s.counter + 1 = patience := by omega
    rw [hc1]
  | succ m ih =>
    intro e n s hstop hc hni hn
    obtain ⟨n₁, rfl⟩ : ∃ n₁, n = n₁ + 1 := ⟨n - 1, by omega⟩
    rw [trainLoop]
    have hni0 : improves (L e) s.bestLoss = false := hni e le_rfl (by omega)
    have hdec : decide (patience ≤ s.counter + 1) = false := by
      simp
      omega
    have hstep : epochStep L θ s e = ⟨s.bestLoss, s.counter + 1, s.ckpt, false⟩ := by
      rw [epochStep, if_neg (by simp [hni0])]
      rw [hstop, hdec]
      rfl
    simp only [hstep]
    rw [if_neg (by simp)]
    have hrec := ih (e + 1) n₁ ⟨s.bestLoss, s.counter + 1, s.ckpt, false⟩ rfl
      (by change s.counter + 1 + (m + 1) = patience; omega)
      (fun j hj1 hj2 => hni j (by omega) (by omega)) (by omega)
    rw [hrec]
    refine Prod.ext rfl ?_
    change (e + 1) + (m + 1) = e + (m + 1 + 1)
    omega

/-- Claim C2: if the epoch loop is still running at epoch `k`, the mean loss of
epoch `k` strictly improves on the best seen so far, and no later epoch ever
improves on it, then `train_model` halts exactly 20 non-improving epochs after
epoch `k` (the last epoch executed is `k + 20`, before the configured budget
whenever `k + 21 ≤ epochs`), with the early-stop flag raised, and the
checkpoint it then restores (`best_model.pth`) is the parameter snapshot
persisted at epoch `k` — not the last-trained parameters. -/
theorem early_stopping_restores_best_checkpoint {P : Type}
    (L : ℕ → ℚ) (θ : ℕ → P) (k epochs : ℕ)
    (hreach : (statesAt L θ k).stopped = false)
    (himp : improves (L k) ((statesAt L θ k).bestLoss) = true)
    (hafter : ∀ j, k < j → L k ≤ L j)
    (hbudget : k + 21 ≤ epochs) :
    train_model L θ epochs = (⟨some (L k), patience, some (θ k), true⟩, k + 21) := by
  rw [train_model, trainLoop_skip L θ k epochs (by omega) hreach]
  obtain ⟨n₁, hn₁⟩ : ∃ n₁, epochs - k = n₁ + 1 := ⟨epochs - k - 1, by omega⟩
  rw [hn₁, trainLoop]
  have hstep : epochStep L θ (statesAt L θ k) k = ⟨some (L k), 0, some (θ k), false⟩ := by
    rw [epochStep, if_pos himp, hreach]
  simp only [hstep]
  rw [if_neg (by simp)]
  have hstall := trainLoop_stall L θ 19 (k + 1) n₁ ⟨some (L k), 0, some (θ k), false⟩ rfl
    (by change 0 + (19 + 1) = patience; rfl)
    (fun j hj1 hj2 => by
      have hnl : ¬ (L j < L k) := not_lt.mpr (hafter j (by omega))
      change improves (L j) (some (L k)) = false
      simp [improves, hnl])
    (by omega)
  rw [hstall]

lemma epochStep_ckpt_isSome {P : Type} (L : ℕ → ℚ) (θ : ℕ → P) (s : TrainState P)
    (e : ℕ) (h : s.ckpt.isSome = true) : (epochStep L θ s e).ckpt.isSome = true := by
  rw [epochStep]
  by_cases hi : improves (L e) s.bestLoss = true
  · rw [if_pos hi]
    rfl
  · rw [if_neg hi]
    exact h

lemma trainLoop_ckpt_isSome {P : Type} (L : ℕ → ℚ) (θ : ℕ → P) :
    ∀ (n e : ℕ) (s : TrainState P), s.ckpt.isSome = true →
      ((trainLoop L θ n e s).1).ckpt.isSome = true := by
  intro n
  induction n with
  | zero =>
    intro e s h
    exact h
  | succ n ih =>
    intro e s h
    rw [trainLoop]
    by_cases hst : (epochStep L θ s e).stopped = true
    · rw [if_pos hst]
      exact epochStep_ckpt_isSome L θ s e h
    · rw [if_neg hst]
      exact ih (e + 1) _ (epochStep_ckpt_isSome L θ s e h)

/-- Claim C3: with at least one epoch (and the per-epoch losses well defined,
which needs at least one batch), the `float('inf')` sentinel makes the first
completed epoch always count as an improvement — `improves (L 0)` against the
sentinel is `true` outright — so a checkpoint is written during epoch 0 and the
`ckpt` field can never be `none` when the loop exits: the `torch.load` after
the loop cannot fail for lack of a checkpoint. -/
theorem checkpoint_always_written {P : Type} (L : ℕ → ℚ) (θ : ℕ → P) (epochs : ℕ)
    (h : 1 ≤ epochs) :
    improves (L 0) none = true ∧
    ((train_model L θ epochs).1).ckpt.isSome = true := by
  refine ⟨rfl, ?_⟩
  obtain ⟨n₁, rfl⟩ : ∃ n₁, epochs = n₁ + 1 := ⟨epochs - 1, by omega⟩
  rw [train_model, trainLoop]
  have hstep : epochStep L θ initTrainState 0 = ⟨some (L 0), 0, some (θ 0), false⟩ := by
    rw [epochStep, if_pos (show improves (L 0) initTrainState.bestLoss = true from rfl)]
    rfl
  simp only [hstep]
  by_cases hst : ((⟨some (L 0), 0, some (θ 0), false⟩ : TrainState P)).stopped = true
  · simp at hst
  · rw [if_neg hst]
    exact trainLoop_ckpt_isSome L θ n₁ 1 _ rfl

/-- A constant epoch-loss sequence, for the concrete witnesses. -/
def constLoss : ℕ → ℚ := fun _ => 0

/-- Parameter snapshots tagged by their epoch index, for the concrete
witnesses. -/
def epochTag : ℕ → ℕ := fun e => e

/-- Witness for C2 with `k = 0` and a constant loss sequence: epoch 0 improves
on the sentinel, epochs 1..20 stall, the loop halts after epoch 20 (21 epochs
run) and the restored checkpoint is the epoch-0 snapshot. -/
theorem early_stopping_restores_best_checkpoint_witness :
    train_model constLoss epochTag 21 = (⟨some 0, patience, some 0, true⟩, 21) := by
  have h := early_stopping_restores_best_checkpoint constLoss epochTag 0 21 rfl rfl
    (fun j hj => le_refl 0) (by omega)
  simpa [constLoss, epochTag] using h

/-- Witness for C3 with one epoch and a constant loss sequence. -/
theorem checkpoint_always_written_witness :
    improves (constLoss 0) none = true ∧
    ((train_model constLoss epochTag 1).1).ckpt.isSome = true :=
  checkpoint_always_written constLoss epochTag 1 (by omega)

/-! ### `EnhancedCNNModel` shapes (corn.py lines 52-136)

The claim is about tensor shapes, so the model is embedded at the shape
level with pytorch's shape rules:

* `nn.Conv1d(cin, cout, kernel_size=k, stride=1, padding=p)` maps a length-`L`
  sequence to length `L + 2p − k + 1` and needs `L + 2p ≥ k`;
* `nn.BatchNorm1d`, activations and dropout preserve shape;
* `nn.MaxPool1d(kernel_size=2)` (stride defaults to the kernel size) maps
  length `L ≥ 2` to `(L − 2) / 2 + 1`;
* `x.view(x.size(0), -1)` flattens channels × length;
* `nn.Linear(fin, fout)` needs the incoming feature count to equal `fin`.

`forward` unsqueezes `(B, N)` to `(B, 1, N)`, applies
conv1 (1→32, k=11, p=5), conv2 (32→64, k=7, p=3), conv3 (64→128, k=5, p=2),
the pool, the flatten, then fc1 (`fc_input_size → 256`), fc2 (256 → 128)
and fc3 (128 → output_size), where `fc_input_size = 128 * (input_size // 2)`
(corn.py line 83). -/

def conv1dLen (L k p : ℕ) : Option ℕ :=
  if k ≤ L + 2 * p then some (L + 2 * p - k + 1) else none

def maxpool1dLen (L k : ℕ) : Option ℕ :=
  if k ≤ L then some ((L - k) / k + 1) else none

def linearShape (fin fout n : ℕ) : Option ℕ :=
  if n = fin then some fout else none

/-- `fc_input_size = 128 * (input_size // 2)` (corn.py line 83). -/
def fc_input_size (input_size : ℕ) : ℕ := 128 * (input_size / 2)

/-- Shape semantics of `EnhancedCNNModel.forward` on a `(B, N)` input batch. -/
def forwardShape (input_size output_size B N : ℕ) : Option (ℕ × ℕ) :=
  (conv1dLen N 11 5).bind fun l1 =>
  (conv1dLen l1 7 3).bind fun l2 =>
  (conv1dLen l2 5 2).bind fun l3 =>
  (maxpool1dLen l3 2).bind fun lp =>
  (linearShape (fc_input_size input_size) 256 (128 * lp)).bind fun f1 =>
  (linearShape 256 128 f1).bind fun f2 =>
  (linearShape 128 output_size f2).bind fun f3 =>
  some (B, f3)

/-- Claim C7: for every batch `(B, N)` whose width `N` equals the model's
configured input size (any `N ≥ 2`, so that the pool is defined), the forward
pass returns shape exactly `(B, output_size)`; the pooled length is `N / 2`
(integer division), so the flattened intermediate vector has size
`128 * (N / 2) = fc_input_size N`, which is precisely what `fc1` expects. -/
theorem forward_shape_preserved (B N output_size : ℕ) (h : 2 ≤ N) :
    forwardShape N output_size B N = some (B, output_size) ∧
    maxpool1dLen N 2 = some (N / 2) ∧
    128 * (N / 2) = fc_input_size N := by
  have h1 : conv1dLen N 11 5 = some N := by
    rw [conv1dLen, if_pos (by omega)]
    congr 1
    omega
  have h2 : conv1dLen N 7 3 = some N := by
    rw [conv1dLen, if_pos (by omega)]
    congr 1
    omega
  have h3 : conv1dLen N 5 2 = some N := by
    rw [conv1dLen, if_pos (by omega)]
    congr 1
    omega
  have hpool : maxpool1dLen N 2 = some (N / 2) := by
    rw [maxpool1dLen, if_pos (by omega)]
    congr 1
    omega
  refine ⟨?_, hpool, rfl⟩
  rw [forwardShape, h1, Option.some_bind, h2, Option.some_bind, h3, Option.some_bind,
    hpool, Option.some_bind]
  rw [show linearShape (fc_input_size N) 256 (128 * (N / 2)) = some 256 from
    by rw [linearShape, fc_input_size, if_pos rfl]]
  rw [Option.some_bind]
  rw [show linearShape 256 128 256 = some 128 from by rw [linearShape, if_pos rfl]]
  rw [Option.some_bind]
  rw [show linearShape 128 output_size 128 = some output_size from
    by rw [linearShape, if_pos rfl]]
  rw [Option.some_bind]

/-- Witness for C7 at the concrete batch shape `(2, 4)` with 4 output
components. -/
theorem forward_shape_preserved_witness :
    forwardShape 4 4 2 4 = some (2, 4) ∧
    maxpool1dLen 4 2 = some (4 / 2) ∧
    128 * (4 / 2) = fc_input_size 4 :=
  forward_shape_preserved 2 4 4 (by omega)

/-! ### `feature_importance_analysis` (corn.py lines 464-517)

```python
random_sample = torch.randn(1, len(spectra_columns)).to(device)
with torch.no_grad():
    original_output = model(random_sample)
feature_importance = np.zeros(len(spectra_columns))
for i in range(len(spectra_columns)):
    perturbed_sample = random_sample.clone()
    perturbed_sample[0, i] += 0.1
    with torch.no_grad():
        perturbed_output = model(perturbed_sample)
    importance = torch.norm(perturbed_output - original_output).item()
    feature_importance[i] = importance
feature_importance = feature_importance / np.max(feature_importance)
...
top_indices = np.argsort(feature_importance)[-10:]
```

The fitted model in eval mode is an abstract forward function
`M : (ℕ → ℝ) → List ℝ` and the probe sample an abstract `x : ℕ → ℝ` (the
claims quantify over them; the concrete random draw is irrelevant to the
properties).  `clone()` followed by the in-place `+= 0.1` at channel `i` is
the pure function `perturb`; `torch.norm` of the output delta is the
Euclidean norm of the elementwise difference; `np.max` of a nonempty array is
its greatest element; `np.argsort(...)[-10:]` keeps the last ten positions of
an ascending argsort (all of them when there are fewer than ten channels). -/

def perturb (x : ℕ → ℝ) (i : ℕ) : ℕ → ℝ := fun j => if j = i then x j + 0.1 else x j

noncomputable def subLists (u v : List ℝ) : List ℝ := List.zipWith (fun a b => a - b) u v

noncomputable def euclNorm (v : List ℝ) : ℝ := Real.sqrt ((v.map fun t => t ^ 2).sum)

noncomputable def rawImportance (M : (ℕ → ℝ) → List ℝ) (x : ℕ → ℝ) (i : ℕ) : ℝ :=
  euclNorm (subLists (M (perturb x i)) (M x))

noncomputable def rawImportances (M : (ℕ → ℝ) → List ℝ) (x : ℕ → ℝ) (N : ℕ) :
    List ℝ :=
  (List.range N).map (rawImportance M x)

/-- `np.max` of a (nonempty) array. -/
noncomputable def npMax (l : List ℝ) : ℝ := l.maximum.unbot' 0

/-- The normalized importance vector returned by the analysis. -/
noncomputable def feature_importance (M : (ℕ → ℝ) → List ℝ) (x : ℕ → ℝ) (N : ℕ) :
    List ℝ :=
  (rawImportances M x N).map fun v => v / npMax (rawImportances M x N)

noncomputable def argsortLe (vals : List ℝ) (i j : ℕ) : Bool :=
  decide (vals.getD i 0 ≤ vals.getD j 0)

/-- `np.argsort`: the channel indices sorted by ascending value. -/
noncomputable def argsortAsc (vals : List ℝ) : List ℕ :=
  (List.range vals.length).mergeSort (argsortLe vals)

/-- `np.argsort(vals)[-10:]`: the last ten entries of the ascending argsort. -/
noncomputable def topIndices (vals : List ℝ) : List ℕ :=
  (argsortAsc vals).drop ((argsortAsc vals).length - 10)

def allInUnitInterval (l : List ℝ) : Prop := ∀ v ∈ l, 0 ≤ v ∧ v ≤ 1

/-- Every channel outside the selection is no more important than every
selected channel. -/
def topDominates (vals : List ℝ) (top : List ℕ) : Prop :=
  ∀ i ∈ top, ∀ j, j < vals.length → j ∉ top → vals.getD j 0 ≤ vals.getD i 0

lemma le_npMax {l : List ℝ} {a : ℝ} (ha : a ∈ l) : a ≤ npMax l := by
  cases hm : l.maximum with
  | bot =>
    rw [List.maximum_eq_none.mp hm] at ha
    exact absurd ha (List.not_mem_nil a)
  | coe m =>
    rw [npMax, hm]
    simpa using List.le_maximum_of_mem ha hm

lemma npMax_mem {l : List ℝ} (hl : l ≠ []) : npMax l ∈ l := by
  cases hm : l.maximum with
  | bot => exact absurd (List.maximum_eq_none.mp hm) hl
  | coe m =>
    rw [npMax, hm]
    simpa using List.maximum_mem hm

lemma rawImportance_nonneg (M : (ℕ → ℝ) → List ℝ) (x : ℕ → ℝ) (i : ℕ) :
    0 ≤ rawImportance M x i :=
  Real.sqrt_nonneg _

lemma rawImportances_length (M : (ℕ → ℝ) → List ℝ) (x : ℕ → ℝ) (N : ℕ) :
    (rawImportances M x N).length = N := by
  rw [rawImportances, List.length_map, List.length_range]

lemma feature_importance_length (M : (ℕ → ℝ) → List ℝ) (x : ℕ → ℝ) (N : ℕ) :
    (feature_importance M x N).length = N := by
  rw [feature_importance, List.length_map, rawImportances_length]

lemma mem_rawImportances_nonneg {M : (ℕ → ℝ) → List ℝ} {x : ℕ → ℝ} {N : ℕ} {v : ℝ}
    (hv : v ∈ rawImportances M x N) : 0 ≤ v := by
  obtain ⟨i, _, rfl⟩ := List.mem_map.mp hv
  exact rawImportance_nonneg M x i

lemma allInUnit_feature_importance (M : (ℕ → ℝ) → List ℝ) (x : ℕ → ℝ) (N : ℕ)
    (hmax : 0 < npMax (rawImportances M x N)) :
    allInUnitInterval (feature_importance M x N) := by
  intro v hv
  obtain ⟨u, hu, rfl⟩ := List.mem_map.mp hv
  exact ⟨div_nonneg (mem_rawImportances_nonneg hu) (le_of_lt hmax),
    (div_le_one hmax).mpr (le_npMax hu)⟩

lemma npMax_feature_importance (M : (ℕ → ℝ) → List ℝ) (x : ℕ → ℝ) (N : ℕ)
    (hN : 0 < N) (hmax : 0 < npMax (rawImportances M x N)) :
    npMax (feature_importance M x N) = 1 := by
  have hne : feature_importance M x N ≠ [] :=
    List.length_pos.mp (by rw [feature_importance_length]; exact hN)
  have hrne : rawImportances M x N ≠ [] :=
    List.length_pos.mp (by rw [rawImportances_length]; exact hN)
  have h1mem : (1 : ℝ) ∈ feature_importance M x N := by
    rw [feature_importance, ← div_self (ne_of_gt hmax)]
    exact List.mem_map_of_mem _ (npMax_mem hrne)
  apply le_antisymm
  · exact ((allInUnit_feature_importance M x N hmax) _ (npMax_mem hne)).2
  · exact le_npMax h1mem

lemma argsortAsc_length (vals : List ℝ) : (argsortAsc vals).length = vals.length :=
  (List.mergeSort_perm _ _).length_eq.trans (List.length_range _)

lemma topIndices_length (vals : List ℝ) :
    (topIndices vals).length = min 10 vals.length := by
  rw [topIndices, List.length_drop, argsortAsc_length]
  omega

lemma topDominates_topIndices (vals : List ℝ) :
    topDominates vals (topIndices vals) := by
  intro i hi j hjlen hjtop
  rw [topIndices] at hi hjtop
  have hsorted : List.Pairwise (fun a b => argsortLe vals a b = true) (argsortAsc vals) := by
    apply List.sorted_mergeSort
    · intro a b c hab hbc
      simp only [argsortLe, decide_eq_true_eq] at hab hbc ⊢
      exact le_trans hab hbc
    · intro a b
      rcases le_total (vals.getD a 0) (vals.getD b 0) with h | h
      · have hab : argsortLe vals a b = true := by
          rw [argsortLe]
          exact decide_eq_true h
        rw [hab, Bool.true_or]
      · have hba : argsortLe vals b a = true := by
          rw [argsortLe]
          exact decide_eq_true h
        rw [hba, Bool.or_true]
  have hperm : (argsortAsc vals).Perm (List.range vals.length) := List.mergeSort_perm _ _
  have hjs : j ∈ argsortAsc vals := hperm.mem_iff.mpr (List.mem_range.mpr hjlen)
  have hsplit :
      (argsortAsc vals).take ((argsortAsc vals).length - 10)
        ++ (argsortAsc vals).drop ((argsortAsc vals).length - 10) = argsortAsc vals :=
    List.take_append_drop _ _
  have hjtake : j ∈ (argsortAsc vals).take ((argsortAsc vals).length - 10) := by
    rcases List.mem_append.mp (by rw [hsplit]; exact hjs) with h | h
    · exact h
    · exact absurd h hjtop
  have hcross := (List.pairwise_append.mp (by rw [hsplit]; exact hsorted)).2.2
  have hji := hcross j hjtake i hi
  simpa [argsortLe] using hji

/-- Claim C8: the importance vector returned by `feature_importance_analysis` —
each raw importance being the Euclidean norm of the output delta under a `+0.1`
perturbation of one channel (`rawImportance`), normalized by the maximum raw
importance (`feature_importance`) — has maximum value exactly 1, every entry in
`[0, 1]`, and the returned top selection consists of (at most) 10 channels
none of which is less important than any unselected channel.  The
normalization is well defined provided the maximum raw importance is positive
(a constant model would make it 0 and the division degenerate). -/
theorem feature_importance_normalized (M : (ℕ → ℝ) → List ℝ) (x : ℕ → ℝ) (N : ℕ)
    (hN : 0 < N) (hmax : 0 < npMax (rawImportances M x N)) :
    npMax (feature_importance M x N) = 1 ∧
    allInUnitInterval (feature_importance M x N) ∧
    (topIndices (feature_importance M x N)).length = min 10 N ∧
    topDominates (feature_importance M x N) (topIndices (feature_importance M x N)) := by
  refine ⟨npMax_feature_importance M x N hN hmax,
    allInUnit_feature_importance M x N hmax, ?_, topDominates_topIndices _⟩
  rw [topIndices_length, feature_importance_length]

/-- A one-channel identity probe model, for the concrete witnesses. -/
def probeModel : (ℕ → ℝ) → List ℝ := fun v => [v 0]

/-- The all-zero probe sample, for the concrete witnesses. -/
def zeroProbe : ℕ → ℝ := fun _ => 0

/-- Witness for C8 with the one-channel identity model and the zero probe:
the single raw importance is `√(0.1²) > 0`. -/
theorem feature_importance_normalized_witness :
    npMax (feature_importance probeModel zeroProbe 1) = 1 ∧
    allInUnitInterval (feature_importance probeModel zeroProbe 1) ∧
    (topIndices (feature_importance probeModel zeroProbe 1)).length = min 10 1 ∧
    topDominates (feature_importance probeModel zeroProbe 1)
      (topIndices (feature_importance probeModel zeroProbe 1)) := by
  have hc : (0 : ℝ) < rawImportance probeModel zeroProbe 0 := by
    rw [rawImportance, subLists]
    simp only [probeModel, zeroProbe, perturb, if_pos rfl]
    rw [euclNorm]
    apply Real.sqrt_pos.mpr
    norm_num
  have hmem : rawImportance probeModel zeroProbe 0 ∈ rawImportances probeModel zeroProbe 1 := by
    rw [rawImportances]
    exact List.mem_map_of_mem _ (by simp)
  exact feature_importance_normalized probeModel zeroProbe 1 (by omega)
    (lt_of_lt_of_le hc (le_npMax hmem))

/-- Claim C10: the perturbed sample evaluated for channel `i` agrees with the
probe at every channel `j ≠ i` and exceeds it by exactly `0.1` at channel `i`;
and the `i`-th recorded raw importance is measured against the unchanged probe
`x` and the fixed baseline output `M x` (the probe and baseline are never
mutated: `perturb` is applied to the same `x` for every channel). -/
theorem perturbation_frame (M : (ℕ → ℝ) → List ℝ) (x : ℕ → ℝ) (N i j : ℕ)
    (hi : i < N) (hj : j ≠ i) :
    perturb x i i = x i + 0.1 ∧
    perturb x i j = x j ∧
    (rawImportances M x N).getD i 0 = euclNorm (subLists (M (perturb x i)) (M x)) := by
  refine ⟨by simp [perturb], by simp [perturb, hj], ?_⟩
  rw [rawImportances, List.getD_eq_getElem _ _ (by simpa using hi)]
  simp [rawImportance]

/-- Witness for C10 with the one-channel identity model, the zero probe,
`N = 2`, `i = 0`, `j = 1`. -/
theorem perturbation_frame_witness :
    perturb zeroProbe 0 0 = zeroProbe 0 + 0.1 ∧
    perturb zeroProbe 0 1 = zeroProbe 1 ∧
    (rawImportances probeModel zeroProbe 2).getD 0 0
      = euclNorm (subLists (probeModel (perturb zeroProbe 0)) (probeModel zeroProbe)) :=
  perturbation_frame probeModel zeroProbe 2 0 1 (by omega) (by omega)

/-! ### `StandardScaler` round trip (corn.py lines 187-191 and 349-352)

`load_and_preprocess_data` fits `scaler_spectra` and `scaler_targets`
(sklearn `StandardScaler`); `evaluate_model` applies
`scaler_targets.inverse_transform` to the accumulated predictions and labels.
Per feature, sklearn stores `mean_` (column mean) and
`scale_ = sqrt(column population variance)`, with an exactly-zero scale
replaced by 1 (`_handle_zeros_in_scale`); `transform` computes
`(x - mean_) / scale_` and `inverse_transform` computes
`z * scale_ + mean_`, feature by feature. -/

structure StdScaler where
  mean_ : ℝ
  scale_ : ℝ

/-- sklearn `_handle_zeros_in_scale`: a zero scale is replaced by 1. -/
noncomputable def handleZeros (s : ℝ) : ℝ := if s = 0 then 1 else s

/-- Fit one feature (one column of the fitting data). -/
noncomputable def scalerFit (col : List ℝ) : StdScaler :=
  ⟨npMean col, handleZeros (npStd col)⟩

/-- Fit all features from their columns. -/
noncomputable def scalerFitAll (cols : List (List ℝ)) : List StdScaler :=
  cols.map scalerFit

/-- `transform` of one sample vector (one value per feature). -/
noncomputable def scalerTransformVec (S : List StdScaler) (x : List ℝ) : List ℝ :=
  List.zipWith (fun s v => (v - s.mean_) / s.scale_) S x

/-- `inverse_transform` of one sample vector. -/
noncomputable def scalerInverseVec (S : List StdScaler) (z : List ℝ) : List ℝ :=
  List.zipWith (fun s v => v * s.scale_ + s.mean_) S z

/-- Claim C9: for every scaler fit on some data and every vector of matching
width whose features all have nonzero standard deviation in the fitting data,
`inverse_transform (transform x) = x` exactly in real arithmetic (up to
floating-point rounding in the implementation); this is what lets
`evaluate_model` recover predictions and targets in physical units. -/
theorem scaler_round_trip (cols : List (List ℝ)) (x : List ℝ)
    (hlen : x.length = cols.length)
    (hstd : ∀ c ∈ cols, npStd c ≠ 0) :
    scalerInverseVec (scalerFitAll cols) (scalerTransformVec (scalerFitAll cols) x) = x := by
  induction cols generalizing x with
  | nil =>
    have hx : x = [] := List.length_eq_zero.mp hlen
    rw [hx]
    rfl
  | cons c cs ih =>
    obtain ⟨a, as, rfl⟩ : ∃ a as, x = a :: as := by
      cases x with
      | nil => simp at hlen
      | cons a as => exact ⟨a, as, rfl⟩
    have hsc : npStd c ≠ 0 := hstd c (List.mem_cons_self c cs)
    have hscale : handleZeros (npStd c) = npStd c := by
      rw [handleZeros, if_neg hsc]
    rw [scalerFitAll, List.map_cons, scalerTransformVec, List.zipWith_cons_cons,
      scalerInverseVec, List.zipWith_cons_cons]
    have hhead : (a - (scalerFit c).mean_) / (scalerFit c).scale_ * (scalerFit c).scale_
        + (scalerFit c).mean_ = a := by
      rw [scalerFit]
      show (a - npMean c) / handleZeros (npStd c) * handleZeros (npStd c) + npMean c = a
      rw [hscale, div_mul_cancel₀ _ hsc, sub_add_cancel]
    rw [hhead]
    have htail := ih as (by simpa using hlen) (fun d hd => hstd d (List.mem_cons_of_mem c hd))
    rw [scalerFitAll, scalerTransformVec, scalerInverseVec] at htail
    rw [htail]

/-- Witness for C9: one feature fit on `[1, 3]` (mean 2, population variance 1,
standard deviation 1) round-trips the sample `[5]`. -/
theorem scaler_round_trip_witness :
    scalerInverseVec (scalerFitAll [[1, 3]])
      (scalerTransformVec (scalerFitAll [[1, 3]]) [5]) = [5] := by
  have hstd : npStd [(1 : ℝ), 3] ≠ 0 := by
    rw [npStd, show npVar [(1 : ℝ), 3] = 1 by norm_num [npVar, npMean], Real.sqrt_one]
    exact one_ne_zero
  exact scaler_round_trip [[1, 3]] [5] (by simp)
    (fun c hc => by
      have : c = [(1 : ℝ), 3] := by simpa using hc
      rw [this]
      exact hstd)
